import Mathlib

/-!
Shallow embedding of the tool-proxy session pipeline
(`conversation_manager.py`, `main.py`, `proxy.py`, `tool_executor.py`)
together with proofs of the specification claims about it.

Python dictionaries representing chat messages are embedded as structures;
absent keys are `Option.none`; Python truthiness of a string is
`s ≠ ""`, of a list is `l ≠ []`.  Machine-independent `int` arithmetic is
embedded as `Nat`/`Int`; Python `//` on non-negative operands is `Nat.div`.
-/

namespace ToolProxy

/-- Arguments of a tool call as stored on a message.  `str` is a Python
string payload; `obj` is a structured (dict) payload embedded by its
`json.dumps` serialization, which is the only attribute of it the code
reads (`len(json.dumps(args))`); `other` is any non-str, non-dict value,
which the estimator ignores. -/
inductive ArgVal where
  | str (s : String)
  | obj (serialized : String)
  | other
deriving DecidableEq, Repr

/-- The `function` field of a tool call: `name` and `arguments`
(`arguments` defaults to `"{}"` in the source when absent; an absent
`arguments` key is embedded as `.str "\x7b\x7d"`). -/
structure ToolFunction where
  name : String
  arguments : ArgVal
deriving DecidableEq, Repr

/-- A tool call dict carried on an assistant message.  `id`, `type` and
`function` keys may each be absent. -/
structure ToolCall where
  id : Option String
  type : Option String
  function : Option ToolFunction
deriving DecidableEq, Repr

/-- One conversation message dict.  `role` embeds `msg.get("role", "")`
(a message without a role behaves as role `""` everywhere in the code);
`content` is an optional string (non-string contents are not used by the
claims and are not modelled); `toolCalls` embeds the `tool_calls` key,
with the absent key and the empty list identified (the code treats both
by falsiness and both contribute nothing); `toolCallId` and `name` are
the linking keys of tool-role messages. -/
structure Message where
  role : String
  content : Option String
  toolCalls : List ToolCall
  toolCallId : Option String
  name : Option String
deriving DecidableEq, Repr

/-! ## `ConversationManager._estimate_token_count` -/

/-- Character count the estimator reads off a tool call's arguments. -/
def argChars : ArgVal → Nat
  | .str s => s.length
  | .obj serialized => serialized.length
  | .other => 0

/-- Per-tool-call name/argument tokens (`len(name)//4 + len(args)//4`),
contributed only when the call has a `function` key. -/
def callTokens (c : ToolCall) : Nat :=
  match c.function with
  | none => 0
  | some f => f.name.length / 4 + argChars f.arguments / 4

/-- `len(content)//4` for a string content, `0` otherwise (an absent,
`None`, empty or non-string content contributes nothing). -/
def contentTokens (m : Message) : Nat :=
  match m.content with
  | some s => s.length / 4
  | none => 0

/-- Tokens of one message as summed by the loop body of
`_estimate_token_count`: 4 overhead, content, `5 * len(tool_calls)`
overhead plus per-call name/argument tokens, and — for tool-role
messages — the content once more (lines 233-236 of the source add
`len(content)//4` a second time when `role == "tool"`). -/
def messageTokens (m : Message) : Nat :=
  4 + contentTokens m
    + (5 * m.toolCalls.length + (m.toolCalls.map callTokens).sum)
    + (if m.role = "tool" then contentTokens m else 0)

/-- `ConversationManager._estimate_token_count`. -/
def _estimate_token_count (messages : List Message) : Nat :=
  (messages.map messageTokens).sum

/-- Per-tool-call tokens as the specification words them: "5 overhead
tokens per tool call plus `len(name)/4 + len(serialized arguments)/4`
for each".  On a call without a `function` key — on which the
specification is silent — only the 5-token overhead is counted, as in
the code. -/
def specCallTokens (c : ToolCall) : Nat :=
  5 + (match c.function with
    | none => 0
    | some f => f.name.length / 4 + argChars f.arguments / 4)

/-- Per-message tokens as the specification words them: "4 overhead
tokens per message, plus `len(text) / 4` for message content", plus the
per-tool-call tokens — and nothing else. -/
def specMessageTokens (m : Message) : Nat :=
  4 + contentTokens m + (m.toolCalls.map specCallTokens).sum

/-- The token estimator exactly as the specification describes it. -/
def specTokenCount (messages : List Message) : Nat :=
  (messages.map specMessageTokens).sum

/-- The specification's estimator amended by the one term the code
adds beyond it: for tool-role messages the string content is counted a
second time. -/
def specMessageTokensAmended (m : Message) : Nat :=
  specMessageTokens m + (if m.role = "tool" then contentTokens m else 0)

/-- The amended reference estimator. -/
def specTokenCountAmended (messages : List Message) : Nat :=
  (messages.map specMessageTokensAmended).sum

/-! ## `ConversationManager._identify_tool_sequences` -/

/-- Python truthiness test `role == "assistant" and msg["tool_calls"]`:
the message starts a tool sequence. -/
def startsToolSequence (m : Message) : Bool :=
  m.role = "assistant" && !m.toolCalls.isEmpty

/-- The loop of `_identify_tool_sequences`, carrying `current_sequence`,
`in_tool_sequence` and the accumulated `sequences` exactly as the Python
loop does. -/
def identifyAux : List Message → List Message → Bool → List (List Message) →
    List (List Message)
  | [], cur, _, seqs => if cur.isEmpty then seqs else seqs ++ [cur]
  | m :: rest, cur, inSeq, seqs =>
    if startsToolSequence m then
      identifyAux rest [m] true (if cur.isEmpty then seqs else seqs ++ [cur])
    else if m.role = "tool" && inSeq then
      identifyAux rest (cur ++ [m]) inSeq seqs
    else if inSeq then
      identifyAux rest [m] false (seqs ++ [cur])
    else
      identifyAux rest [m] false (if cur.isEmpty then seqs else seqs ++ [cur])

/-- `ConversationManager._identify_tool_sequences`. -/
def _identify_tool_sequences (messages : List Message) : List (List Message) :=
  identifyAux messages [] false []

/-- Structural invariant of every produced sequence: non-empty, and
either a singleton or a tool-call-bearing assistant message followed by
tool-role messages only. -/
def seqOK (seq : List Message) : Prop :=
  seq ≠ [] ∧
    (seq.length ≤ 1 ∨
      ∃ a ts, seq = a :: ts ∧ startsToolSequence a = true ∧ ∀ t ∈ ts, t.role = "tool")

/-! ## `ConversationManager.manage_context_window` -/

/-- The low-budget tail-fill loop (source lines 160-167): walk the given
(already reversed) messages, prepending each whose estimated cost fits
the remaining budget and subtracting its cost, and stop at the first
that does not fit.  `remaining` is an `Int` because it can be negative. -/
def tailFillAux : List Message → Int → List Message → List Message
  | [], _, acc => acc
  | m :: rest, remaining, acc =>
    if (_estimate_token_count [m] : Int) ≤ remaining then
      tailFillAux rest (remaining - _estimate_token_count [m]) (m :: acc)
    else acc

/-- `for msg in reversed(messages): ... else break`, starting from the
most recent message. -/
def tailFill (messages : List Message) (remaining : Int) : List Message :=
  tailFillAux messages.reverse remaining []

/-- The sequence-packing loop (source lines 176-187): walk the (already
reversed) sequence list; extend `result` with a whole sequence that fits
and subtract its cost, otherwise append just the sequence's most recent
message if the remaining budget is positive and that message alone fits
(note: the fallback append does not subtract the message's cost, as in
the source). -/
def packSeqs : List (List Message) → Int → List Message → List Message
  | [], _, result => result
  | seq :: rest, remaining, result =>
    if (_estimate_token_count seq : Int) ≤ remaining then
      packSeqs rest (remaining - _estimate_token_count seq) (result ++ seq)
    else
      if !seq.isEmpty && decide (0 < remaining) then
        match seq.getLast? with
        | some lastMsg =>
          if (_estimate_token_count [lastMsg] : Int) ≤ remaining then
            packSeqs rest remaining (result ++ [lastMsg])
          else
            packSeqs rest remaining result
        | none => packSeqs rest remaining result
      else packSeqs rest remaining result

/-- The sort key of source line 190:
`lambda x: messages.index(x) if x in messages else 0`, where `messages`
is the system-stripped list.  `pyIndexOf` is Python `list.index`
restricted to present elements (the lambda only calls it under
`x in messages`). -/
def pyIndexOf : List Message → Message → Nat
  | [], _ => 0
  | m :: rest, x => if m = x then 0 else pyIndexOf rest x + 1

/-- The sort key. -/
def sortKey (strippedMessages : List Message) (x : Message) : Nat :=
  if x ∈ strippedMessages then pyIndexOf strippedMessages x else 0

/-- Python `sorted(result, key=...)` is a stable sort by the key;
`List.insertionSort` with the key preorder is a stable sort by the same
key, hence the same function. -/
def pySortByKey (key : Message → Nat) (l : List Message) : List Message :=
  List.insertionSort (fun a b => key a ≤ key b) l

/-- The `result` list right after the system-message check (source
lines 148-151): the leading message alone if it has role `system`,
else empty. -/
def systemPart (messages : List Message) : List Message :=
  match messages.head? with
  | some m => if m.role = "system" then [m] else []
  | none => []

/-- The local `messages` after the possible reassignment
`messages = messages[1:]` of source line 151. -/
def strippedPart (messages : List Message) : List Message :=
  if (systemPart messages).isEmpty then messages else messages.tail

/-- `remaining_tokens = max_tokens - system_tokens` (source lines
154-155); an `Int` because it can be negative. -/
def remainingBudget (messages : List Message) (maxTokens : Int) : Int :=
  maxTokens - _estimate_token_count (systemPart messages)

/-- `ConversationManager.manage_context_window`.  `maxTokens` is an
`Int` (the spec's edge cases include non-positive budgets). -/
def manage_context_window (messages : List Message) (maxTokens : Int) :
    List Message :=
  if messages.isEmpty then []
  else if (_estimate_token_count messages : Int) ≤ maxTokens then messages
  else if remainingBudget messages maxTokens < 1000 then
    systemPart messages ++
      tailFill (strippedPart messages) (remainingBudget messages maxTokens)
  else
    pySortByKey (sortKey (strippedPart messages))
      (packSeqs (_identify_tool_sequences (strippedPart messages)).reverse
        (remainingBudget messages maxTokens) (systemPart messages))

/-! ## Protocol translation (`main.py`, `proxy.py`)

The backend (Ollama) wire objects and the external (OpenAI-style)
response objects.  Environment effects (`uuid.uuid4()`, `time.time()`)
are passed as explicit arguments. -/

/-- A backend tool call `call` as read by `transform_tool_calls`:
`call.get("id", ...)`, `call["function"]["name"]`,
`call["function"]["arguments"]`.  The structured arguments payload is
embedded by its `json.dumps` serialization, the only view of it the
code produces. -/
structure RawToolCall where
  id : Option String
  name : String
  argumentsSerialized : String
deriving DecidableEq, Repr

/-- The `function` object of an external-format tool call: `arguments`
is the JSON text produced by `json.dumps`. -/
structure OAIFunction where
  name : String
  arguments : String
deriving DecidableEq, Repr

/-- An external-format (OpenAI-style) tool call as produced by
`transform_tool_calls`: every field present. -/
structure OAIToolCall where
  id : String
  type : String
  function : OAIFunction
deriving DecidableEq, Repr

/-- `main.transform_tool_calls`: assign `call_<index>` identifiers when
the backend omits one and serialize arguments to text. -/
def transform_tool_calls (toolCalls : List RawToolCall) : List OAIToolCall :=
  toolCalls.enum.map fun p =>
    ⟨p.2.id.getD ("call_" ++ toString p.1), "function", ⟨p.2.name, p.2.argumentsSerialized⟩⟩

/-- One parsed backend line / non-streaming backend response body:
`chunk.get("id", "")`, `chunk.get("created", 0)`, `chunk.get("model", "")`,
`chunk.get("message", {}).get("content")`,
`chunk.get("message", {}).get("tool_calls")` (absent embeds as `[]`),
`chunk.get("done", False)`. -/
structure OllamaChunk where
  id : Option String
  created : Option Nat
  model : Option String
  messageContent : Option String
  messageToolCalls : List RawToolCall
  done : Bool
deriving DecidableEq, Repr

/-- A line of the backend stream: blank and JSON-malformed lines are
skipped by the translators. -/
inductive StreamLine where
  | blank
  | malformed
  | line (chunk : OllamaChunk)
deriving DecidableEq, Repr

/-- The delta object of an external streaming chunk. -/
inductive Delta where
  | role (r : String)
  | content (text : String)
  | toolCalls (calls : List OAIToolCall)
  | empty
deriving DecidableEq, Repr

/-- One external streaming chunk (`chat.completion.chunk` with a single
choice at index 0). -/
structure ChunkFrame where
  id : String
  created : Nat
  model : String
  delta : Delta
  finishReason : Option String
deriving DecidableEq, Repr

/-- One server-sent event yielded by a stream translator: a
`data: <json>` frame or the `data: [DONE]` sentinel. -/
inductive SSEEvent where
  | frame (f : ChunkFrame)
  | doneSentinel
deriving DecidableEq, Repr

/-- Python truthiness of `chunk.get("message", {}).get("content")`. -/
def contentTruthy : Option String → Bool
  | some s => !(s = "")
  | none => false

/-- Events one parsed backend chunk contributes in
`main.transform_ollama_stream`: a tool-call delta if the chunk carries
tool calls, else a content delta if it carries non-empty content, and
additionally a `finish_reason = stop` frame with empty delta if the
chunk signals `done`. -/
def chunkEvents (c : OllamaChunk) : List SSEEvent :=
  (if !c.messageToolCalls.isEmpty then
    [.frame ⟨c.id.getD "", c.created.getD 0, c.model.getD "",
      .toolCalls (transform_tool_calls c.messageToolCalls), none⟩]
  else if contentTruthy c.messageContent then
    [.frame ⟨c.id.getD "", c.created.getD 0, c.model.getD "",
      .content (c.messageContent.getD ""), none⟩]
  else [])
  ++ (if c.done then
    [.frame ⟨c.id.getD "", c.created.getD 0, c.model.getD "", .empty, some "stop"⟩]
  else [])

/-- Events one stream line contributes in `main.transform_ollama_stream`
(blank and malformed lines are skipped). -/
def lineEvents : StreamLine → List SSEEvent
  | .blank => []
  | .malformed => []
  | .line c => chunkEvents c

/-- `main.transform_ollama_stream`: per-line events in backend line
order, then the `[DONE]` sentinel. -/
def transform_ollama_stream (lines : List StreamLine) : List SSEEvent :=
  lines.flatMap lineEvents ++ [.doneSentinel]

/-- Events one stream line contributes in
`proxy.process_streaming_response`: only non-empty content yields a
frame (`chunk_data.get("message", {}).get("content", "")`). -/
def proxyLineEvents (chatId : String) (creationTime : Nat) (modelName : String) :
    StreamLine → List SSEEvent
  | .blank => []
  | .malformed => []
  | .line c =>
    if contentTruthy c.messageContent then
      [.frame ⟨chatId, creationTime, modelName, .content (c.messageContent.getD ""), none⟩]
    else []

/-- `proxy.process_streaming_response`: a leading role frame, one
content frame per content-bearing line, a terminal stop frame, then the
`[DONE]` sentinel.  `chatId` and `creationTime` embed
`f"chatcmpl-\x7buuid.uuid4()\x7d"` and `int(time.time())`. -/
def process_streaming_response (chatId : String) (creationTime : Nat)
    (modelName : String) (lines : List StreamLine) : List SSEEvent :=
  [.frame ⟨chatId, creationTime, modelName, .role "assistant", none⟩]
  ++ lines.flatMap (proxyLineEvents chatId creationTime modelName)
  ++ [.frame ⟨chatId, creationTime, modelName, .empty, some "stop"⟩, .doneSentinel]

/-- The message object of an external non-streaming choice.  `content`
is `none` when the key is absent, `some` when present; `toolCalls` is
`none` when the key is absent or `None`. -/
structure OpenAIMessage where
  role : String
  content : Option String
  toolCalls : Option (List OAIToolCall)
deriving DecidableEq, Repr

/-- One choice of an external non-streaming response. -/
structure Choice where
  index : Nat
  message : OpenAIMessage
  finishReason : String
deriving DecidableEq, Repr

/-- The token-usage block `proxy.transform_to_openai_format` attaches. -/
structure Usage where
  promptTokens : Nat
  completionTokens : Nat
  totalTokens : Nat
deriving DecidableEq, Repr

/-- An external non-streaming response envelope. -/
structure OpenAIResponse where
  id : String
  object : String
  created : Nat
  model : String
  choices : List Choice
  usage : Option Usage
deriving DecidableEq, Repr

/-- The non-streaming inbound translation of `main.chat_completions`
(source lines 287-331): if the backend response carries tool calls, a
single choice with the translated tool-call list and
`finish_reason = "tool_calls"` (no `content` key); otherwise a single
choice with the (possibly empty) text content and
`finish_reason = "stop"`. -/
def chat_completions_nonstreaming (model : String) (r : OllamaChunk) :
    OpenAIResponse :=
  if !r.messageToolCalls.isEmpty then
    { id := r.id.getD "", object := "chat.completion", created := r.created.getD 0,
      model := r.model.getD model,
      choices := [⟨0, ⟨"assistant", none, some (transform_tool_calls r.messageToolCalls)⟩,
        "tool_calls"⟩],
      usage := none }
  else
    { id := r.id.getD "", object := "chat.completion", created := r.created.getD 0,
      model := r.model.getD model,
      choices := [⟨0, ⟨"assistant", some (r.messageContent.getD ""), none⟩, "stop"⟩],
      usage := none }

/-- `proxy.transform_to_openai_format`: always a single
`finish_reason = "stop"` choice whose message carries the extracted
content (fallback `""`) and `tool_calls: None`, regardless of backend
tool calls.  `uuid` and `now` embed `uuid.uuid4()` and
`int(time.time())`. -/
def transform_to_openai_format (r : OllamaChunk) (modelName : String)
    (uuid : String) (now : Nat) : OpenAIResponse :=
  { id := "chatcmpl-" ++ uuid, object := "chat.completion", created := now,
    model := modelName,
    choices := [⟨0, ⟨"assistant", some (r.messageContent.getD ""), none⟩, "stop"⟩],
    usage := some ⟨100, 50, 150⟩ }

/-! ## Tool execution (`tool_executor.py`, `main.handle_tool_calls`)

The tool capability implementations are external collaborators (spec
§1/§6); their behavior — including `**arguments` binding errors — is a
parameter `impl`, whose outcome is either a returned result dict or a
raised exception. -/

/-- A structured tool result dict. -/
inductive ToolResult where
  | error (message : String)
  | content (text : String)
  | successMsg (message : String)
  | files (names : List String)
  | other (payload : String)
deriving DecidableEq, Repr

/-- Outcome of invoking a handler coroutine: a result, or an exception
(whose `str(e)` is carried). -/
inductive HandlerOutcome where
  | ok (result : ToolResult)
  | raised (message : String)
deriving DecidableEq, Repr

/-- The keys of the `handlers` dict in `ToolExecutor.execute_tool`. -/
def handlerNames : List String :=
  ["builtin_read_file", "builtin_edit_existing_file", "builtin_create_new_file",
   "builtin_run_terminal_command", "builtin_grep_search", "builtin_file_glob_search",
   "builtin_search_web", "builtin_view_diff", "builtin_read_currently_open_file",
   "builtin_ls", "builtin_create_rule_block"]

/-- `ToolExecutor.execute_tool`: unknown names get a structured
`Unknown tool` error; a handler exception (including argument-binding
mismatch) is caught and returned as a structured
`Tool execution failed` error.  `arguments` is the parsed argument
payload, embedded by its serialized text (`handle_tool_calls` parses it
with `json.loads` from text produced by `json.dumps`, so parsing is
lossless and decode failure cannot occur there). -/
def execute_tool (impl : String → String → HandlerOutcome)
    (toolName : String) (arguments : String) : ToolResult :=
  if toolName ∈ handlerNames then
    match impl toolName arguments with
    | .ok r => r
    | .raised e => .error ("Tool execution failed: " ++ e)
  else
    .error ("Unknown tool: " ++ toolName)

/-- `json.dumps` of a tool result dict (string escaping inside the
payload is not modelled; the rendering is injective on the result
shapes used here). -/
def serializeToolResult : ToolResult → String
  | .error m => "\x7b\"error\": \"" ++ m ++ "\"\x7d"
  | .content t => "\x7b\"content\": \"" ++ t ++ "\"\x7d"
  | .successMsg m => "\x7b\"success\": true, \"message\": \"" ++ m ++ "\"\x7d"
  | .files ns => "\x7b\"files\": " ++ toString ns ++ "\x7d"
  | .other p => p

/-- The external-format tool call written into the assistant message of
`handle_tool_calls`, viewed as a message-level tool call dict. -/
def OAIToolCall.toToolCall (c : OAIToolCall) : ToolCall :=
  ⟨some c.id, some c.type, some ⟨c.function.name, .str c.function.arguments⟩⟩

/-- The tool-role response message appended per call by
`handle_tool_calls`, tagged with the call's id and name. -/
def toolResponseMessage (c : OAIToolCall) (result : ToolResult) : Message :=
  ⟨"tool", some (serializeToolResult result), [], some c.id, some c.function.name⟩

/-- The assistant message carrying the full ordered tool-call list. -/
def assistantToolCallMessage (toolCalls : List OAIToolCall) : Message :=
  ⟨"assistant", none, toolCalls.map OAIToolCall.toToolCall, none, none⟩

/-- The session store, keyed by session id (`ConversationManager`
persistence viewed at the `save_message`/`get_history` interface). -/
def Store : Type := String → Option (List Message)

/-- `ConversationManager.save_message`: replace the stored list. -/
def save_message (store : Store) (sessionId : String) (msgs : List Message) :
    Store :=
  fun k => if k = sessionId then some msgs else store k

/-- `main.handle_tool_calls`: append one assistant message carrying the
calls, execute each call in order appending one tool-role result
message per call, then persist the updated log.  Returns the updated
store together with the new message list. -/
def handle_tool_calls (impl : String → String → HandlerOutcome)
    (store : Store) (sessionId : String) (messages : List Message)
    (toolCalls : List OAIToolCall) : Store × List Message :=
  let newMessages :=
    messages ++ assistantToolCallMessage toolCalls ::
      toolCalls.map (fun c =>
        toolResponseMessage c (execute_tool impl c.function.name c.function.arguments))
  (save_message store sessionId newMessages, newMessages)

/-! ## Path resolution and the file tools (`tool_executor.py`) -/

/-- Python `str.startswith`, at the character level. -/
def pyStartsWith (s pre : String) : Bool :=
  pre.data.isPrefixOf s.data

/-- The filesystem view `_resolve_path` reads: `wsResolved` is
`str(self.workspace.resolve())` and `resolveJoin fp` is
`str((self.workspace / fp).resolve())`. -/
structure PathEnv where
  wsResolved : String
  resolveJoin : String → String

/-- `ToolExecutor._resolve_path`: resolve against the workspace and
raise `ValueError` (here: `Except.error` carrying `str(e)`) unless the
resolved path string starts with the resolved workspace string. -/
def _resolve_path (env : PathEnv) (filepath : String) : Except String String :=
  let path := env.resolveJoin filepath
  if pyStartsWith path env.wsResolved then .ok path
  else .error ("Path traversal detected: " ++ filepath)

/-- The filesystem effects the file tools perform, as an environment:
existence/directory tests, read/write outcomes (`Except.error` is a
raised exception's `str`), `mkdir(parents=True)` on the parent, and
directory listings (non-recursive `iterdir` names, recursive `os.walk`
relative paths). -/
structure FSEnv where
  paths : PathEnv
  pathExists : String → Bool
  isDir : String → Bool
  readText : String → Except String String
  writeText : String → String → Except String Unit
  mkdirParents : String → Except String Unit
  iterNames : String → List String
  walkFiles : String → List String

/-- `ToolExecutor.read_file`: the `except` clause turns any raised
exception (including the traversal `ValueError`) into a structured
error result. -/
def read_file (fs : FSEnv) (filepath : String) : ToolResult :=
  match _resolve_path fs.paths filepath with
  | .error e => .error e
  | .ok path =>
    if !fs.pathExists path then .error ("File not found: " ++ filepath)
    else
      match fs.readText path with
      | .ok text => .content text
      | .error e => .error e

/-- `ToolExecutor.edit_existing_file`.  The second component collects
the writes performed (path, new text); no write happens on any error
path. -/
def edit_existing_file (fs : FSEnv) (filepath changes : String) :
    ToolResult × List (String × String) :=
  match _resolve_path fs.paths filepath with
  | .error e => (.error e, [])
  | .ok path =>
    if !fs.pathExists path then (.error ("File not found: " ++ filepath), [])
    else
      match fs.writeText path changes with
      | .ok _ => (.successMsg ("File " ++ filepath ++ " updated successfully"),
          [(path, changes)])
      | .error e => (.error e, [])

/-- `ToolExecutor.create_new_file`, with performed writes collected as
in `edit_existing_file`. -/
def create_new_file (fs : FSEnv) (filepath contents : String) :
    ToolResult × List (String × String) :=
  match _resolve_path fs.paths filepath with
  | .error e => (.error e, [])
  | .ok path =>
    match fs.mkdirParents path with
    | .error e => (.error e, [])
    | .ok _ =>
      match fs.writeText path contents with
      | .ok _ => (.successMsg ("File " ++ filepath ++ " created successfully"),
          [(path, contents)])
      | .error e => (.error e, [])

/-- `ToolExecutor.list_directory`. -/
def list_directory (fs : FSEnv) (dirPath : String) (recursive : Bool) : ToolResult :=
  match _resolve_path fs.paths dirPath with
  | .error e => .error e
  | .ok path =>
    if !fs.pathExists path || !fs.isDir path then
      .error ("Directory not found: " ++ dirPath)
    else
      .files (if recursive then fs.walkFiles path else fs.iterNames path)

/-! ## Concrete example inputs used to instantiate the claims -/

/-- A small user message (estimated cost 4). -/
def exUserA : Message := ⟨"user", some "a", [], none, none⟩

/-- A small user message (estimated cost 4 + 5/4 = 5). -/
def exHello : Message := ⟨"user", some "hello", [], none, none⟩

/-- A small user message (estimated cost 5). -/
def exWorld : Message := ⟨"user", some "world", [], none, none⟩

/-- A small user message (estimated cost 4). -/
def exUserHi : Message := ⟨"user", some "hi", [], none, none⟩

/-- A small tool-role result message (estimated cost 4). -/
def exToolOk : Message := ⟨"tool", some "ok", [], none, none⟩

/-- A small tool-role result message (estimated cost 4). -/
def exToolR1 : Message := ⟨"tool", some "r1", [], none, none⟩

/-- A small tool-role result message (estimated cost 4). -/
def exToolR2 : Message := ⟨"tool", some "r2", [], none, none⟩

/-- A small assistant message bearing one tool call (estimated cost
4 + 5 + 0 + 0 = 9). -/
def exAssistantSmall : Message :=
  ⟨"assistant", none, [⟨some "c1", some "function", some ⟨"f", .str "x"⟩⟩], none, none⟩

/-- An assistant message bearing 202 tool calls without `function`
keys: estimated cost 4 + 5 * 202 = 1014. -/
def exAssistantBig : Message :=
  ⟨"assistant", none, List.replicate 202 ⟨none, none, none⟩, none, none⟩

/-- A user message carrying 200 tool calls without `function` keys:
estimated cost 4 + 5 * 200 = 1004. -/
def exUserBig : Message :=
  ⟨"user", none, List.replicate 200 ⟨none, none, none⟩, none, none⟩

/-- A system message carrying 220 tool calls without `function` keys:
estimated cost 4 + 5 * 220 = 1104. -/
def exSystemBig : Message :=
  ⟨"system", none, List.replicate 220 ⟨none, none, none⟩, none, none⟩

/-- A system message with 40 characters of content: estimated cost
4 + 40/4 = 14. -/
def exSystemSmall : Message :=
  ⟨"system", some "ssssssssssssssssssssssssssssssssssssssss", [], none, none⟩

/-- A backend response carrying one tool call and no content. -/
def exBackendToolResponse : OllamaChunk :=
  ⟨none, none, none, none, [⟨none, "shell", "\x7b\x7d"⟩], false⟩

/-- A handler environment for witnesses: every known handler returns a
fixed result. -/
def exImpl : String → String → HandlerOutcome := fun _ _ => .ok (.other "r")

/-- An empty session store. -/
def exStore : Store := fun _ => none

/-- An external-format tool call naming an unregistered capability. -/
def exUnknownCall : OAIToolCall := ⟨"id1", "function", ⟨"not_a_tool", "\x7b\x7d"⟩⟩

/-- A filesystem view in which `"../x"` resolves outside the workspace. -/
def exFS : FSEnv :=
  { paths := ⟨"/ws", fun fp => if fp = "../x" then "/x" else "/ws/" ++ fp⟩,
    pathExists := fun _ => false,
    isDir := fun _ => false,
    readText := fun _ => .error "e",
    writeText := fun _ _ => .ok (),
    mkdirParents := fun _ => .ok (),
    iterNames := fun _ => [],
    walkFiles := fun _ => [] }

/-! ## Basic estimator lemmas -/

theorem estimate_nil : _estimate_token_count [] = 0 := rfl

theorem estimate_cons (m : Message) (l : List Message) :
    _estimate_token_count (m :: l) = messageTokens m + _estimate_token_count l := by
  simp [_estimate_token_count]

theorem estimate_append (l₁ l₂ : List Message) :
    _estimate_token_count (l₁ ++ l₂) = _estimate_token_count l₁ + _estimate_token_count l₂ := by
  simp [_estimate_token_count]

theorem sum_map_five_add (l : List ToolCall) :
    (l.map (fun c => 5 + callTokens c)).sum = 5 * l.length + (l.map callTokens).sum := by
  induction l with
  | nil => simp
  | cons c cs ih => simp [ih]; ring

theorem messageTokens_eq_amended (m : Message) :
    messageTokens m = specMessageTokensAmended m := by
  have h : (m.toolCalls.map specCallTokens).sum
      = 5 * m.toolCalls.length + (m.toolCalls.map callTokens).sum := by
    have he : m.toolCalls.map specCallTokens = m.toolCalls.map (fun c => 5 + callTokens c) := by
      apply List.map_congr_left
      intro c _
      simp [specCallTokens, callTokens]
    rw [he, sum_map_five_add]
  simp only [messageTokens, specMessageTokensAmended, specMessageTokens, h]

/-- **C2** (counterexample): on a tool-role message with 8 characters of
content the code's estimator returns 8 (= 4 overhead + 2 content + 2
content again), not the 6 the specification's description computes —
refuting "and nothing else". -/
theorem estimator_spec_refuted :
    _estimate_token_count [⟨"tool", some "abcdefgh", [], none, none⟩] = 8 ∧
    specTokenCount [⟨"tool", some "abcdefgh", [], none, none⟩] = 6 ∧
    _estimate_token_count [⟨"tool", some "abcdefgh", [], none, none⟩] ≠
      specTokenCount [⟨"tool", some "abcdefgh", [], none, none⟩] := by
  refine ⟨rfl, rfl, ?_⟩
  decide

/-- **C2** (amended): for every message list, `_estimate_token_count`
returns the sum over messages of 4 overhead tokens, plus
`len(content)/4` for string content, plus per tool call 5 overhead plus
`len(name)/4 + len(serialized arguments)/4` — plus, for tool-role
messages, `len(content)/4` counted a second time. -/
theorem estimator_spec_amended (messages : List Message) :
    _estimate_token_count messages = specTokenCountAmended messages := by
  induction messages with
  | nil => rfl
  | cons m l ih =>
    simp [_estimate_token_count, specTokenCountAmended] at ih ⊢
    rw [messageTokens_eq_amended, ih]

/-! ## Stream framing (C6) -/

/-- **C6**: on the backend line sequence
`[\x7bmessage:\x7bcontent:"Hi"\x7d\x7d, \x7bmessage:\x7bcontent:" there"\x7d\x7d, \x7bdone:true\x7d]`
the stream translator emits exactly the delta `"Hi"`, the delta
`" there"`, an empty delta with `finish_reason = stop`, and then the
`[DONE]` sentinel — no other frames, in exactly that order. -/
theorem stream_framing_exact :
    transform_ollama_stream
      [.line ⟨none, none, none, some "Hi", [], false⟩,
       .line ⟨none, none, none, some " there", [], false⟩,
       .line ⟨none, none, none, none, [], true⟩] =
    [.frame ⟨"", 0, "", .content "Hi", none⟩,
     .frame ⟨"", 0, "", .content " there", none⟩,
     .frame ⟨"", 0, "", .empty, some "stop"⟩,
     .doneSentinel] := by
  decide

/-! ## Non-streaming response shape (C7) -/

/-- **C7** (counterexample): `proxy.transform_to_openai_format` maps a
backend response that carries a tool call to an empty-content `stop`
response with `tool_calls: None` — the translated response does not
carry the tool calls. -/
theorem nonstreaming_tool_calls_refuted :
    exBackendToolResponse.messageToolCalls ≠ [] ∧
    (transform_to_openai_format exBackendToolResponse "m" "u" 0).choices =
      [⟨0, ⟨"assistant", some "", none⟩, "stop"⟩] := by
  constructor
  · decide
  · rfl

/-- **C7** (amended): the main gateway's non-streaming translation
produces a single choice carrying either text content with
`finish_reason = stop` (exactly when the backend carries no tool calls)
or the translated tool-call list with `finish_reason = tool_calls`
(exactly when it does), and never both; the secondary translator
`transform_to_openai_format` instead always returns a content/`stop`
choice with no tool calls. -/
theorem nonstreaming_shape_amended (model : String) (r : OllamaChunk) :
    (∃ ch, (chat_completions_nonstreaming model r).choices = [ch] ∧
      ((ch.message.content = some (r.messageContent.getD "") ∧
        ch.message.toolCalls = none ∧ ch.finishReason = "stop" ∧
        r.messageToolCalls = []) ∨
       (ch.message.content = none ∧
        ch.message.toolCalls = some (transform_tool_calls r.messageToolCalls) ∧
        ch.finishReason = "tool_calls" ∧ r.messageToolCalls ≠ []))) ∧
    (∀ modelName uuid now,
      (transform_to_openai_format r modelName uuid now).choices =
        [⟨0, ⟨"assistant", some (r.messageContent.getD ""), none⟩, "stop"⟩]) := by
  constructor
  · by_cases h : r.messageToolCalls = []
    · refine ⟨⟨0, ⟨"assistant", some (r.messageContent.getD ""), none⟩, "stop"⟩,
        ?_, Or.inl ⟨rfl, rfl, rfl, h⟩⟩
      simp [chat_completions_nonstreaming, h]
    · refine ⟨⟨0, ⟨"assistant", none, some (transform_tool_calls r.messageToolCalls)⟩,
        "tool_calls"⟩, ?_, Or.inr ⟨rfl, rfl, rfl, h⟩⟩
      simp [chat_completions_nonstreaming, h]
  · intro modelName uuid now
    rfl

/-! ## Tool-batch orchestration (C8) -/

/-- **C8**: `handle_tool_calls` appends exactly one assistant message
plus one tool-role message per call (in call order, tagged with the
call's id and name), persists the updated log under the session id
after all calls are processed, and a call naming an unregistered
capability yields a tool message whose content is the serialized
structured "unknown tool" error — never an exception, an aborted batch,
or a skipped persist. -/
theorem tool_batch_containment (impl : String → String → HandlerOutcome)
    (store : Store) (sessionId : String) (messages : List Message)
    (toolCalls : List OAIToolCall) :
    (handle_tool_calls impl store sessionId messages toolCalls).2 =
      messages ++ assistantToolCallMessage toolCalls ::
        toolCalls.map (fun c =>
          toolResponseMessage c (execute_tool impl c.function.name c.function.arguments)) ∧
    (handle_tool_calls impl store sessionId messages toolCalls).1 sessionId =
      some (handle_tool_calls impl store sessionId messages toolCalls).2 ∧
    (∀ c ∈ toolCalls, c.function.name ∉ handlerNames →
      toolResponseMessage c (execute_tool impl c.function.name c.function.arguments) =
        ⟨"tool",
          some (serializeToolResult (.error ("Unknown tool: " ++ c.function.name))),
          [], some c.id, some c.function.name⟩ ∧
      toolResponseMessage c (execute_tool impl c.function.name c.function.arguments) ∈
        (handle_tool_calls impl store sessionId messages toolCalls).2) := by
  refine ⟨rfl, ?_, ?_⟩
  · simp [handle_tool_calls, save_message]
  · intro c hc hn
    constructor
    · have he : execute_tool impl c.function.name c.function.arguments =
          .error ("Unknown tool: " ++ c.function.name) := by
        simp [execute_tool, hn]
      rw [he]
      rfl
    · show _ ∈ messages ++ _ :: toolCalls.map _
      apply List.mem_append_right
      exact List.mem_cons_of_mem _ (List.mem_map_of_mem _ hc)

/-- Witness for C8: a concrete batch with one unregistered call. -/
theorem tool_batch_containment_witness :
    exUnknownCall.function.name ∉ handlerNames ∧
    toolResponseMessage exUnknownCall
        (execute_tool exImpl exUnknownCall.function.name exUnknownCall.function.arguments) =
      ⟨"tool",
        some (serializeToolResult (.error ("Unknown tool: " ++ exUnknownCall.function.name))),
        [], some exUnknownCall.id, some exUnknownCall.function.name⟩ ∧
    (handle_tool_calls exImpl exStore "s" [] [exUnknownCall]).1 "s" =
      some (handle_tool_calls exImpl exStore "s" [] [exUnknownCall]).2 := by
  have h := tool_batch_containment exImpl exStore "s" [] [exUnknownCall]
  have hu := h.2.2 exUnknownCall (by simp) (by decide)
  exact ⟨by decide, hu.1, h.2.1⟩

/-! ## Partition invariant of `_identify_tool_sequences` (C9) -/

theorem identifyAux_flatten :
    ∀ (rest cur : List Message) (inSeq : Bool) (seqs : List (List Message)),
    (identifyAux rest cur inSeq seqs).flatten = seqs.flatten ++ cur ++ rest := by
  intro rest
  induction rest with
  | nil =>
    intro cur inSeq seqs
    by_cases h : cur = [] <;> simp [identifyAux, h]
  | cons m rest ih =>
    intro cur inSeq seqs
    by_cases h1 : startsToolSequence m
    · by_cases h : cur = [] <;> simp [identifyAux, h1, h, ih]
    · cases inSeq with
      | true =>
        by_cases hrole : m.role = "tool"
        · simp [identifyAux, h1, hrole, ih]
        · simp [identifyAux, h1, hrole, ih]
      | false =>
        by_cases h : cur = [] <;> simp [identifyAux, h1, h, ih]

theorem identify_flatten (messages : List Message) :
    (_identify_tool_sequences messages).flatten = messages := by
  simpa using identifyAux_flatten messages [] false []

theorem identifyAux_seqOK :
    ∀ (rest cur : List Message) (inSeq : Bool) (seqs : List (List Message)),
    (∀ s ∈ seqs, seqOK s) →
    (inSeq = true →
      ∃ a ts, cur = a :: ts ∧ startsToolSequence a = true ∧ ∀ t ∈ ts, t.role = "tool") →
    (inSeq = false → cur.length ≤ 1) →
    ∀ s ∈ identifyAux rest cur inSeq seqs, seqOK s := by
  intro rest
  induction rest with
  | nil =>
    intro cur inSeq seqs hs hcur1 hcur0 s hmem
    by_cases h : cur = []
    · simp [identifyAux, h] at hmem
      exact hs s hmem
    · simp [identifyAux, h] at hmem
      rcases hmem with hmem | hmem
      · exact hs s hmem
      · subst hmem
        refine ⟨h, ?_⟩
        cases inSeq with
        | false => exact Or.inl (hcur0 rfl)
        | true =>
          rcases hcur1 rfl with ⟨a, ts, hc, hst, hts⟩
          exact Or.inr ⟨a, ts, hc, hst, hts⟩
  | cons m rest ih =>
    intro cur inSeq seqs hs hcur1 hcur0 s hmem
    have hseqOKcur : cur ≠ [] → seqOK cur := by
      intro hne
      refine ⟨hne, ?_⟩
      cases inSeq with
      | false => exact Or.inl (hcur0 rfl)
      | true =>
        rcases hcur1 rfl with ⟨a, ts, hc, hst, hts⟩
        exact Or.inr ⟨a, ts, hc, hst, hts⟩
    by_cases h1 : startsToolSequence m
    · have hnew1 : (true = true) →
          ∃ a ts, [m] = a :: ts ∧ startsToolSequence a = true ∧ ∀ t ∈ ts, t.role = "tool" :=
        fun _ => ⟨m, [], rfl, h1, by simp⟩
      by_cases h : cur = []
      · simp [identifyAux, h1, h] at hmem
        exact ih [m] true seqs hs hnew1 (by simp) s hmem
      · simp [identifyAux, h1, h] at hmem
        refine ih [m] true (seqs ++ [cur]) ?_ hnew1 (by simp) s hmem
        intro t ht
        rcases List.mem_append.mp ht with ht | ht
        · exact hs t ht
        · have heq := List.mem_singleton.mp ht
          subst heq
          exact hseqOKcur h
    · cases inSeq with
      | true =>
        by_cases hrole : m.role = "tool"
        · simp [identifyAux, h1, hrole] at hmem
          rcases hcur1 rfl with ⟨a, ts, hc, hst, hts⟩
          refine ih (cur ++ [m]) true seqs hs ?_ (by simp) s hmem
          intro _
          refine ⟨a, ts ++ [m], by simp [hc], hst, ?_⟩
          intro t ht
          rcases List.mem_append.mp ht with ht | ht
          · exact hts t ht
          · have heq := List.mem_singleton.mp ht
            subst heq
            exact hrole
        · simp [identifyAux, h1, hrole] at hmem
          refine ih [m] false (seqs ++ [cur]) ?_ (by simp) (fun _ => by simp) s hmem
          intro t ht
          rcases List.mem_append.mp ht with ht | ht
          · exact hs t ht
          · have heq := List.mem_singleton.mp ht
            subst heq
            rcases hcur1 rfl with ⟨a, ts, hc, hst, hts⟩
            exact ⟨by simp [hc], Or.inr ⟨a, ts, hc, hst, hts⟩⟩
      | false =>
        by_cases h : cur = []
        · simp [identifyAux, h1, h] at hmem
          exact ih [m] false seqs hs (by simp) (fun _ => by simp) s hmem
        · simp [identifyAux, h1, h] at hmem
          refine ih [m] false (seqs ++ [cur]) ?_ (by simp) (fun _ => by simp) s hmem
          intro t ht
          rcases List.mem_append.mp ht with ht | ht
          · exact hs t ht
          · have heq := List.mem_singleton.mp ht
            subst heq
            exact hseqOKcur h

theorem identify_seqOK (messages : List Message) :
    ∀ s ∈ _identify_tool_sequences messages, seqOK s :=
  identifyAux_seqOK messages [] false [] (by simp) (by simp) (by simp)

theorem identify_ne_nil (messages : List Message) :
    ∀ s ∈ _identify_tool_sequences messages, s ≠ [] :=
  fun s hs => (identify_seqOK messages s hs).1

/-- **C9**: `_identify_tool_sequences` partitions its input — the
in-order concatenation of the returned sequences is exactly the input
list (no message duplicated, dropped or reordered) and every returned
sequence is non-empty. -/
theorem tool_sequences_partition (messages : List Message) :
    (_identify_tool_sequences messages).flatten = messages ∧
    ∀ s ∈ _identify_tool_sequences messages, s ≠ [] :=
  ⟨identify_flatten messages, identify_ne_nil messages⟩

/-- Witness for C9 at a concrete input. -/
theorem tool_sequences_partition_witness :
    (_identify_tool_sequences [exHello]).flatten = [exHello] ∧
    [exHello] ≠ ([] : List Message) := by
  have h := tool_sequences_partition [exHello]
  exact ⟨h.1, h.2 [exHello] (by decide)⟩

/-! ## Helper lemmas on `tailFill` -/

theorem tailFillAux_shape :
    ∀ (l : List Message) (remaining : Int) (acc : List Message),
    ∃ p t, l = p ++ t ∧ tailFillAux l remaining acc = p.reverse ++ acc := by
  intro l
  induction l with
  | nil =>
    intro remaining acc
    exact ⟨[], [], rfl, rfl⟩
  | cons m rest ih =>
    intro remaining acc
    by_cases h : (_estimate_token_count [m] : Int) ≤ remaining
    · rcases ih (remaining - _estimate_token_count [m]) (m :: acc) with ⟨p, t, hpt, hres⟩
      refine ⟨m :: p, t, by simp [hpt], ?_⟩
      simp [tailFillAux, h, hres]
    · exact ⟨[], m :: rest, rfl, by simp [tailFillAux, h]⟩

theorem tailFill_sublist (l : List Message) (remaining : Int) :
    List.Sublist (tailFill l remaining) l := by
  rcases tailFillAux_shape l.reverse remaining [] with ⟨p, t, hpt, hres⟩
  have hl : l = t.reverse ++ p.reverse := by
    have := congrArg List.reverse hpt
    simpa using this
  rw [tailFill, hres, hl]
  simp only [List.append_nil]
  exact List.sublist_append_right t.reverse p.reverse

theorem tailFill_eq_nil_of_neg (l : List Message) (remaining : Int)
    (h : remaining < 0) : tailFill l remaining = [] := by
  rw [tailFill]
  cases hrev : l.reverse with
  | nil => rfl
  | cons m rest =>
    have hm : ¬ ((_estimate_token_count [m] : Int) ≤ remaining) := by
      have : (0 : Int) ≤ (_estimate_token_count [m] : Int) := Int.ofNat_nonneg _
      omega
    simp [tailFillAux, hm]

/-! ## Helper lemmas on `pyIndexOf` and the stable sort -/

theorem pyIndexOf_cons_self (x : Message) (l : List Message) :
    pyIndexOf (x :: l) x = 0 := by
  simp [pyIndexOf]

theorem pyIndexOf_append_of_notMem (p : List Message) {x : Message}
    (hx : x ∉ p) : ∀ l, pyIndexOf (p ++ l) x = p.length + pyIndexOf l x := by
  induction p with
  | nil => intro l; simp
  | cons m rest ih =>
    intro l
    have hmx : m ≠ x := fun h => hx (h ▸ List.mem_cons_self m rest)
    have hx' : x ∉ rest := fun h => hx (List.mem_cons_of_mem m h)
    simp [pyIndexOf, hmx, ih hx' l]
    omega

theorem pyIndexOf_of_split (p q : List Message) (x : Message) (hx : x ∉ p) :
    pyIndexOf (p ++ x :: q) x = p.length := by
  rw [pyIndexOf_append_of_notMem p hx (x :: q), pyIndexOf_cons_self]
  omega

theorem pyIndexOf_inj {l : List Message} {a b : Message}
    (ha : a ∈ l) (hb : b ∈ l) (h : pyIndexOf l a = pyIndexOf l b) : a = b := by
  induction l with
  | nil => cases ha
  | cons m rest ih =>
    by_cases hma : m = a
    · subst hma
      by_cases hmb : m = b
      · exact hmb
      · exfalso
        rw [pyIndexOf_cons_self] at h
        simp only [pyIndexOf, if_neg hmb] at h
        omega
    · by_cases hmb : m = b
      · subst hmb
        exfalso
        rw [pyIndexOf_cons_self] at h
        simp only [pyIndexOf, if_neg hma] at h
        omega
      · simp only [pyIndexOf, if_neg hma, if_neg hmb, Nat.add_right_cancel_iff] at h
        exact ih (List.mem_of_ne_of_mem (fun he => hma he.symm) ha)
          (List.mem_of_ne_of_mem (fun he => hmb he.symm) hb) h

theorem pairwise_lt_index_sublist :
    ∀ (l out : List Message), (∀ x ∈ out, x ∈ l) →
    out.Pairwise (fun a b => pyIndexOf l a < pyIndexOf l b) → List.Sublist out l := by
  intro l
  induction l with
  | nil =>
    intro out hmem _
    cases out with
    | nil => exact List.Sublist.refl []
    | cons a rest => exact absurd (hmem a (List.mem_cons_self a rest)) (by simp)
  | cons b l ih =>
    intro out hmem hpw
    cases out with
    | nil => exact List.nil_sublist _
    | cons a rest =>
      rcases List.pairwise_cons.mp hpw with ⟨hhead, htail⟩
      by_cases hab : a = b
      · subst hab
        have hne : ∀ x ∈ rest, x ≠ a := by
          intro x hx he
          have h1 := hhead x hx
          rw [he, pyIndexOf_cons_self] at h1
          omega
        refine List.Sublist.cons₂ a (ih rest ?_ ?_)
        · intro x hx
          exact List.mem_of_ne_of_mem (hne x hx)
            (hmem x (List.mem_cons_of_mem a hx))
        · refine htail.imp_of_mem ?_
          intro x y hx hy hlt
          have hbx : ¬ (a = x) := fun he => hne x hx he.symm
          have hby : ¬ (a = y) := fun he => hne y hy he.symm
          simp only [pyIndexOf, if_neg hbx, if_neg hby] at hlt
          omega
      · have hne : ∀ x ∈ a :: rest, x ≠ b := by
          intro x hx
          rcases List.mem_cons.mp hx with he | hx'
          · exact he ▸ hab
          · intro heb
            have hba : ¬ (b = a) := fun he => hab he.symm
            have hag : pyIndexOf (b :: l) a = pyIndexOf l a + 1 := by
              simp [pyIndexOf, hba]
            have h1 := hhead x hx'
            rw [heb, pyIndexOf_cons_self] at h1
            omega
        refine List.Sublist.cons b (ih (a :: rest) ?_ ?_)
        · intro x hx
          exact List.mem_of_ne_of_mem (hne x hx) (hmem x hx)
        · refine hpw.imp_of_mem ?_
          intro x y hx hy hlt
          have hbx : ¬ (b = x) := fun he => hne x hx he.symm
          have hby : ¬ (b = y) := fun he => hne y hy he.symm
          simp only [pyIndexOf, if_neg hbx, if_neg hby] at hlt
          omega

theorem pySortByKey_perm (key : Message → Nat) (l : List Message) :
    List.Perm (pySortByKey key l) l :=
  List.perm_insertionSort _ l

theorem pySortByKey_mem (key : Message → Nat) (l : List Message) (x : Message) :
    x ∈ pySortByKey key l ↔ x ∈ l :=
  (pySortByKey_perm key l).mem_iff

theorem pySortByKey_sorted (key : Message → Nat) (l : List Message) :
    (pySortByKey key l).Pairwise (fun a b => key a ≤ key b) := by
  haveI : IsTotal Message (fun a b => key a ≤ key b) := ⟨fun a b => Nat.le_total _ _⟩
  haveI : IsTrans Message (fun a b => key a ≤ key b) :=
    ⟨fun _ _ _ hab hbc => Nat.le_trans hab hbc⟩
  exact List.sorted_insertionSort _ l

theorem pySortByKey_cons_of_min (key : Message → Nat) (a : Message)
    (l : List Message) (h : ∀ b ∈ l, key a ≤ key b) :
    pySortByKey key (a :: l) = a :: pySortByKey key l :=
  List.insertionSort_cons _ h

/-! ## Helper lemmas on `packSeqs` -/

theorem packSeqs_acc : ∀ (L : List (List Message)) (rem : Int) (res : List Message),
    packSeqs L rem res = res ++ packSeqs L rem [] := by
  intro L
  induction L with
  | nil => intro rem res; simp [packSeqs]
  | cons seq rest ih =>
    intro rem res
    simp only [packSeqs]
    split
    · rw [ih (rem - _estimate_token_count seq) (res ++ seq),
        ih (rem - _estimate_token_count seq) ([] ++ seq)]
      simp
    · split
      · split
        · split
          · rename_i lastMsg _ _
            rw [ih rem (res ++ [lastMsg]), ih rem ([] ++ [lastMsg])]
            simp
          · exact ih rem res
        · exact ih rem res
      · exact ih rem res

theorem packSeqs_sublist_flatten : ∀ (L : List (List Message)) (rem : Int),
    List.Sublist (packSeqs L rem []) L.flatten := by
  intro L
  induction L with
  | nil => intro rem; simp [packSeqs]
  | cons seq rest ih =>
    intro rem
    rw [List.flatten_cons]
    simp only [packSeqs]
    split
    · rw [packSeqs_acc rest (rem - _estimate_token_count seq) ([] ++ seq)]
      simp only [List.nil_append]
      exact List.Sublist.append (List.Sublist.refl seq) (ih _)
    · split
      · split
        · split
          · rename_i lastMsg hg _
            rw [packSeqs_acc rest rem ([] ++ [lastMsg])]
            simp only [List.nil_append]
            refine List.Sublist.append ?_ (ih _)
            rw [List.singleton_sublist]
            exact List.mem_of_mem_getLast? hg
          · exact (ih _).trans (List.sublist_append_right seq rest.flatten)
        · exact (ih _).trans (List.sublist_append_right seq rest.flatten)
      · exact (ih _).trans (List.sublist_append_right seq rest.flatten)

theorem packSeqs_mem_cases :
    ∀ (L : List (List Message)) (rem : Int) (x : Message),
    x ∈ packSeqs L rem [] →
    ∃ seq, seq ∈ L ∧
      ((x ∈ seq ∧ List.Sublist seq (packSeqs L rem [])) ∨ seq.getLast? = some x) := by
  intro L
  induction L with
  | nil => intro rem x hx; simp [packSeqs] at hx
  | cons seq rest ih =>
    intro rem x
    simp only [packSeqs]
    split
    · rw [packSeqs_acc rest (rem - _estimate_token_count seq) ([] ++ seq)]
      simp only [List.nil_append]
      intro hx
      rcases List.mem_append.mp hx with hx' | hx'
      · exact ⟨seq, List.mem_cons_self seq rest,
          Or.inl ⟨hx', List.sublist_append_left seq _⟩⟩
      · rcases ih _ x hx' with ⟨s, hs, hcase⟩
        refine ⟨s, List.mem_cons_of_mem seq hs, ?_⟩
        rcases hcase with ⟨hxs, hsub⟩ | hlast
        · exact Or.inl ⟨hxs, hsub.trans (List.sublist_append_right seq _)⟩
        · exact Or.inr hlast
    · split
      · split
        · rename_i lastMsg hg
          split
          · rw [packSeqs_acc rest rem ([] ++ [lastMsg])]
            simp only [List.nil_append]
            intro hx
            rcases List.mem_cons.mp hx with hx' | hx'
            · exact ⟨seq, List.mem_cons_self seq rest, Or.inr (hx' ▸ hg)⟩
            · rcases ih _ x hx' with ⟨s, hs, hcase⟩
              refine ⟨s, List.mem_cons_of_mem seq hs, ?_⟩
              rcases hcase with ⟨hxs, hsub⟩ | hlast
              · exact Or.inl ⟨hxs, List.Sublist.cons lastMsg hsub⟩
              · exact Or.inr hlast
          · intro hx
            rcases ih _ x hx with ⟨s, hs, hcase⟩
            exact ⟨s, List.mem_cons_of_mem seq hs, hcase⟩
        · intro hx
          rcases ih _ x hx with ⟨s, hs, hcase⟩
          exact ⟨s, List.mem_cons_of_mem seq hs, hcase⟩
      · intro hx
        rcases ih _ x hx with ⟨s, hs, hcase⟩
        exact ⟨s, List.mem_cons_of_mem seq hs, hcase⟩

/-! ## Helper lemmas on flattening and ordering -/

theorem flatten_reverse_perm (L : List (List Message)) :
    List.Perm (L.reverse).flatten L.flatten := by
  induction L with
  | nil => simp
  | cons s rest ih =>
    simp only [List.reverse_cons, List.flatten_append, List.flatten_cons]
    have h1 : List.Perm (rest.reverse.flatten ++ (s ++ [].flatten))
        (rest.flatten ++ (s ++ [].flatten)) := ih.append_right _
    refine h1.trans ?_
    simp only [List.flatten_nil, List.append_nil]
    exact List.perm_append_comm

theorem mem_flatten_split {L : List (List Message)} {s : List Message}
    (h : s ∈ L) : ∃ p q, L.flatten = p ++ s ++ q := by
  induction L with
  | nil => cases h
  | cons a rest ih =>
    rcases List.mem_cons.mp h with he | h'
    · exact ⟨[], rest.flatten, by simp [he]⟩
    · rcases ih h' with ⟨p, q, hpq⟩
      exact ⟨a ++ p, q, by simp [hpq]⟩

theorem nodup_flatten_unique {L : List (List Message)} (hnd : L.flatten.Nodup) :
    ∀ s₁ ∈ L, ∀ s₂ ∈ L, ∀ x, x ∈ s₁ → x ∈ s₂ → s₁ = s₂ := by
  induction L with
  | nil => intro s₁ h; cases h
  | cons a rest ih =>
    intro s₁ h₁ s₂ h₂ x hx₁ hx₂
    rw [List.flatten_cons, List.nodup_append] at hnd
    rcases hnd with ⟨_, hnr, hdisj⟩
    rcases List.mem_cons.mp h₁ with he₁ | h₁' <;> rcases List.mem_cons.mp h₂ with he₂ | h₂'
    · exact he₁.trans he₂.symm
    · exact absurd (List.mem_flatten.mpr ⟨s₂, h₂', hx₂⟩) (hdisj (he₁ ▸ hx₁))
    · exact absurd (List.mem_flatten.mpr ⟨s₁, h₁', hx₁⟩) (hdisj (he₂ ▸ hx₂))
    · exact ih hnr s₁ h₁' s₂ h₂' x hx₁ hx₂

theorem mem_mem_sublist_pair {out : List Message} {a t : Message}
    (ha : a ∈ out) (ht : t ∈ out) (hne : a ≠ t) :
    List.Sublist [a, t] out ∨ List.Sublist [t, a] out := by
  induction out with
  | nil => cases ha
  | cons m rest ih =>
    rcases List.mem_cons.mp ha with hea | ha' <;> rcases List.mem_cons.mp ht with het | ht'
    · exact absurd (hea.trans het.symm) hne
    · subst hea
      exact Or.inl (List.Sublist.cons₂ a (List.singleton_sublist.mpr ht'))
    · subst het
      exact Or.inr (List.Sublist.cons₂ t (List.singleton_sublist.mpr ha'))
    · rcases ih ha' ht' with h | h
      · exact Or.inl (List.Sublist.cons m h)
      · exact Or.inr (List.Sublist.cons m h)

/-! ## Path equations for `manage_context_window` -/

theorem manage_eq_empty (maxTokens : Int) :
    manage_context_window [] maxTokens = [] := by
  simp [manage_context_window]

theorem manage_eq_fast (messages : List Message) (maxTokens : Int)
    (h0 : messages ≠ [])
    (h1 : (_estimate_token_count messages : Int) ≤ maxTokens) :
    manage_context_window messages maxTokens = messages := by
  simp [manage_context_window, h0, h1]

theorem manage_eq_low (messages : List Message) (maxTokens : Int)
    (h0 : messages ≠ [])
    (h1 : ¬ ((_estimate_token_count messages : Int) ≤ maxTokens))
    (h2 : remainingBudget messages maxTokens < 1000) :
    manage_context_window messages maxTokens =
      systemPart messages ++
        tailFill (strippedPart messages) (remainingBudget messages maxTokens) := by
  simp [manage_context_window, h0, h1, h2]

theorem manage_eq_pack (messages : List Message) (maxTokens : Int)
    (h0 : messages ≠ [])
    (h1 : ¬ ((_estimate_token_count messages : Int) ≤ maxTokens))
    (h2 : ¬ (remainingBudget messages maxTokens < 1000)) :
    manage_context_window messages maxTokens =
      pySortByKey (sortKey (strippedPart messages))
        (packSeqs (_identify_tool_sequences (strippedPart messages)).reverse
          (remainingBudget messages maxTokens) (systemPart messages)) := by
  simp [manage_context_window, h0, h1, h2]

theorem systemPart_append_stripped (messages : List Message) :
    systemPart messages ++ strippedPart messages = messages := by
  cases messages with
  | nil => rfl
  | cons m tl =>
    by_cases h : m.role = "system" <;> simp [systemPart, strippedPart, h]

theorem nodup_tail {l : List Message} (h : l.Nodup) : l.tail.Nodup := by
  cases l with
  | nil => exact h
  | cons m tl => exact (List.nodup_cons.mp h).2

theorem strippedPart_nodup (messages : List Message) (h : messages.Nodup) :
    (strippedPart messages).Nodup := by
  rw [strippedPart]
  split
  · exact h
  · exact nodup_tail h

/-- The core order-preservation argument: sorting a duplicate-free
selection of a duplicate-free list by the first-match index key yields
a sublist of that list. -/
theorem packed_sorted_sublist (stripped : List Message)
    (res : List Message) (hmem : ∀ x ∈ res, x ∈ stripped) (hres : res.Nodup) :
    List.Sublist (pySortByKey (sortKey stripped) res) stripped := by
  have hperm := pySortByKey_perm (sortKey stripped) res
  have houtnd : (pySortByKey (sortKey stripped) res).Nodup := (hperm.nodup_iff).mpr hres
  have houtmem : ∀ x ∈ pySortByKey (sortKey stripped) res, x ∈ stripped :=
    fun x hx => hmem x (hperm.mem_iff.mp hx)
  have hsorted := pySortByKey_sorted (sortKey stripped) res
  apply pairwise_lt_index_sublist stripped _ houtmem
  have hpw2 : (pySortByKey (sortKey stripped) res).Pairwise
      (fun a b => a ≠ b ∧ sortKey stripped a ≤ sortKey stripped b) :=
    List.Pairwise.and houtnd hsorted
  refine hpw2.imp_of_mem ?_
  intro x y hx hy hxy
  rcases hxy with ⟨hne, hle⟩
  have hxs : x ∈ stripped := houtmem x hx
  have hys : y ∈ stripped := houtmem y hy
  rw [sortKey, if_pos hxs, sortKey, if_pos hys] at hle
  have hidx : pyIndexOf stripped x ≠ pyIndexOf stripped y :=
    fun he => hne (pyIndexOf_inj hxs hys he)
  omega

/-! ## Order preservation (C3) -/

set_option maxRecDepth 8000 in
/-- **C3** (counterexample): on the input
`[hello, world, hello, big]` with budget 1000 the budgeted output is
`[hello, hello, world]`, which is not a sublist of the input — two
retained messages (the second `hello`, coming from input position 2,
and `world`, from position 1) appear in the opposite relative order. -/
theorem order_preservation_refuted :
    manage_context_window [exHello, exWorld, exHello, exUserBig] 1000 =
      [exHello, exHello, exWorld] ∧
    ¬ List.Sublist [exHello, exHello, exWorld]
        [exHello, exWorld, exHello, exUserBig] := by
  constructor
  · decide
  · decide

/-- **C3** (amended): for every input message list **without duplicate
messages** and every budget, the budgeted output is a sublist of the
input — any two retained messages appear in their original relative
order.  (With value-equal duplicates, the re-sort by first value match
can invert the order of retained messages.) -/
theorem order_preservation_amended (messages : List Message) (maxTokens : Int)
    (hnd : messages.Nodup) :
    List.Sublist (manage_context_window messages maxTokens) messages := by
  by_cases h0 : messages = []
  · subst h0
    rw [manage_eq_empty]
  · by_cases h1 : (_estimate_token_count messages : Int) ≤ maxTokens
    · rw [manage_eq_fast messages maxTokens h0 h1]
    · by_cases h2 : remainingBudget messages maxTokens < 1000
      · rw [manage_eq_low messages maxTokens h0 h1 h2]
        conv_rhs => rw [← systemPart_append_stripped messages]
        exact List.Sublist.append (List.Sublist.refl _) (tailFill_sublist _ _)
      · rw [manage_eq_pack messages maxTokens h0 h1 h2]
        have hndstr : (strippedPart messages).Nodup := strippedPart_nodup messages hnd
        have hflat : (_identify_tool_sequences (strippedPart messages)).flatten =
            strippedPart messages := identify_flatten _
        have hfrnd : (((_identify_tool_sequences (strippedPart messages)).reverse).flatten).Nodup := by
          refine ((flatten_reverse_perm _).nodup_iff).mpr ?_
          rw [hflat]
          exact hndstr
        have hpicks_sub := packSeqs_sublist_flatten
          (_identify_tool_sequences (strippedPart messages)).reverse
          (remainingBudget messages maxTokens)
        have hpicksmem : ∀ x ∈ packSeqs
            (_identify_tool_sequences (strippedPart messages)).reverse
            (remainingBudget messages maxTokens) [], x ∈ strippedPart messages := by
          intro x hx
          have hx2 := hpicks_sub.subset hx
          have hx3 := ((flatten_reverse_perm _).mem_iff).mp hx2
          rw [hflat] at hx3
          exact hx3
        have hpicksnd : (packSeqs
            (_identify_tool_sequences (strippedPart messages)).reverse
            (remainingBudget messages maxTokens) []).Nodup :=
          hfrnd.sublist hpicks_sub
        have hcore := packed_sorted_sublist (strippedPart messages) _
          hpicksmem hpicksnd
        cases messages with
        | nil => exact absurd rfl h0
        | cons m0 tl =>
          by_cases hsys : m0.role = "system"
          · have hsp : systemPart (m0 :: tl) = [m0] := by simp [systemPart, hsys]
            have hst : strippedPart (m0 :: tl) = tl := by simp [strippedPart, hsp]
            rw [hsp, hst, packSeqs_acc _ _ [m0], List.singleton_append]
            rw [hst] at hcore
            have hm0 : m0 ∉ tl := (List.nodup_cons.mp hnd).1
            have hkey0 : sortKey tl m0 = 0 := by simp [sortKey, hm0]
            rw [pySortByKey_cons_of_min _ _ _
              (fun b _ => by rw [hkey0]; exact Nat.zero_le _)]
            exact List.Sublist.cons₂ m0 hcore
          · have hsp : systemPart (m0 :: tl) = [] := by simp [systemPart, hsys]
            have hst : strippedPart (m0 :: tl) = m0 :: tl := by
              simp [strippedPart, hsp]
            rw [hsp, hst]
            rw [hst] at hcore
            exact hcore

/-- Witness for C3 at a concrete duplicate-free input. -/
theorem order_preservation_amended_witness :
    [exHello, exWorld].Nodup ∧
    List.Sublist (manage_context_window [exHello, exWorld] 4096)
      [exHello, exWorld] :=
  ⟨by decide, order_preservation_amended [exHello, exWorld] 4096 (by decide)⟩

/-! ## System-message preservation (C4) -/

set_option maxRecDepth 8000 in
/-- **C4** (counterexample): with a later message value-equal to the
leading system message, the re-sort keys the system message by its
duplicate's position and the system message is no longer first: on
`[sysBig, hi, sysBig]` with budget 2200 (≥ the system message's cost
1104) the output is `[hi, sysBig]`. -/
theorem system_first_refuted :
    [exSystemBig, exUserHi, exSystemBig].head? = some exSystemBig ∧
    exSystemBig.role = "system" ∧
    (_estimate_token_count [exSystemBig] : Int) ≤ 2200 ∧
    manage_context_window [exSystemBig, exUserHi, exSystemBig] 2200 =
      [exUserHi, exSystemBig] ∧
    (manage_context_window [exSystemBig, exUserHi, exSystemBig] 2200).head? ≠
      some exSystemBig := by
  refine ⟨rfl, rfl, by decide, ?_, ?_⟩
  · decide
  · decide

/-- **C4** (amended): for every non-empty message list whose first
message has role `system` **and does not recur later in the list**, and
every budget at least the system message's estimated cost, the output
contains the system message as its first element. -/
theorem system_first_amended (m0 : Message) (tl : List Message) (maxTokens : Int)
    (hrole : m0.role = "system")
    (hbudget : (_estimate_token_count [m0] : Int) ≤ maxTokens)
    (hnodup : m0 ∉ tl) :
    (manage_context_window (m0 :: tl) maxTokens).head? = some m0 ∧
    m0 ∈ manage_context_window (m0 :: tl) maxTokens := by
  have hsp : systemPart (m0 :: tl) = [m0] := by simp [systemPart, hrole]
  have hst : strippedPart (m0 :: tl) = tl := by simp [strippedPart, hsp]
  have hhead : (manage_context_window (m0 :: tl) maxTokens).head? = some m0 := by
    by_cases h1 : (_estimate_token_count (m0 :: tl) : Int) ≤ maxTokens
    · rw [manage_eq_fast _ _ (by simp) h1]
      rfl
    · by_cases h2 : remainingBudget (m0 :: tl) maxTokens < 1000
      · rw [manage_eq_low _ _ (by simp) h1 h2, hsp]
        rfl
      · rw [manage_eq_pack _ _ (by simp) h1 h2, hsp, hst]
        rw [packSeqs_acc _ _ [m0], List.singleton_append]
        rw [pySortByKey_cons_of_min _ _ _ (fun b _ => ?_)]
        · rfl
        · have hk : sortKey tl m0 = 0 := by simp [sortKey, hnodup]
          rw [hk]
          exact Nat.zero_le _
  exact ⟨hhead, List.mem_of_mem_head? hhead⟩

/-- Witness for C4 at a concrete input. -/
theorem system_first_witness :
    exSystemSmall.role = "system" ∧
    (_estimate_token_count [exSystemSmall] : Int) ≤ 2000 ∧
    exSystemSmall ∉ [exUserHi] ∧
    (manage_context_window [exSystemSmall, exUserHi] 2000).head? =
      some exSystemSmall := by
  have h := system_first_amended exSystemSmall [exUserHi] 2000 rfl
    (by decide) (by decide)
  exact ⟨rfl, by decide, by decide, h.1⟩

/-! ## Budget exhaustion (C5) -/

/-- **C5** (counterexample): with budget 10 and a leading system
message of cost 14, the most recent message `hi` (cost 4) individually
fits the budget yet is not returned — the tail-fill runs against the
negative remaining budget, so only the system message survives. -/
theorem budget_exhaustion_refuted :
    (_estimate_token_count [exUserHi] : Int) ≤ 10 ∧
    (10 : Int) < (_estimate_token_count [exSystemSmall] : Int) ∧
    exUserHi ∉ manage_context_window [exSystemSmall, exUserHi] 10 := by
  decide

/-- **C5** (amended): when even the leading system message alone
exceeds the budget, the output is exactly the system message — the
remaining budget is negative, so the tail-fill is empty and no other
message is retained, even one that individually fits the overall
budget; the output is nonetheless never empty in this case; and an
empty input always yields an empty output. -/
theorem budget_exhaustion_amended (m0 : Message) (tl : List Message)
    (maxTokens : Int) (hrole : m0.role = "system")
    (hover : maxTokens < (_estimate_token_count [m0] : Int)) :
    manage_context_window (m0 :: tl) maxTokens = [m0] ∧
    manage_context_window (m0 :: tl) maxTokens ≠ [] ∧
    (∀ b : Int, manage_context_window [] b = []) := by
  have hsp : systemPart (m0 :: tl) = [m0] := by simp [systemPart, hrole]
  have hst : strippedPart (m0 :: tl) = tl := by simp [strippedPart, hsp]
  have hm0 : _estimate_token_count [m0] = messageTokens m0 := by
    simp [_estimate_token_count]
  have hrem : remainingBudget (m0 :: tl) maxTokens < 0 := by
    rw [remainingBudget, hsp, hm0]
    rw [hm0] at hover
    omega
  have h1 : ¬ ((_estimate_token_count (m0 :: tl) : Int) ≤ maxTokens) := by
    intro hcon
    rw [estimate_cons] at hcon
    rw [hm0] at hover
    push_cast at hcon
    have hnn : (0 : Int) ≤ (_estimate_token_count tl : Int) := Int.ofNat_nonneg _
    omega
  have heq : manage_context_window (m0 :: tl) maxTokens = [m0] := by
    rw [manage_eq_low _ _ (by simp) h1 (by omega), hsp, hst,
      tailFill_eq_nil_of_neg tl _ hrem]
    rfl
  exact ⟨heq, by rw [heq]; simp, fun b => manage_eq_empty b⟩

/-- Witness for C5 at a concrete input. -/
theorem budget_exhaustion_witness :
    exSystemSmall.role = "system" ∧
    (10 : Int) < (_estimate_token_count [exSystemSmall] : Int) ∧
    manage_context_window [exSystemSmall, exUserHi] 10 = [exSystemSmall] ∧
    manage_context_window [] 10 = [] := by
  have h := budget_exhaustion_amended exSystemSmall [exUserHi] 10 rfl (by decide)
  exact ⟨rfl, by decide, h.1, h.2.2 10⟩

/-! ## Sequence atomicity (C1) -/

theorem startsToolSequence_iff (m : Message) :
    startsToolSequence m = true ↔ m.role = "assistant" ∧ m.toolCalls ≠ [] := by
  simp [startsToolSequence]

theorem mem_systemPart_role {messages : List Message} {x : Message}
    (h : x ∈ systemPart messages) : x.role = "system" := by
  cases hh : messages.head? with
  | none => simp [systemPart, hh] at h
  | some m =>
    simp only [systemPart, hh] at h
    by_cases hr : m.role = "system"
    · rw [if_pos hr] at h
      have he := List.mem_singleton.mp h
      subst he
      exact hr
    · rw [if_neg hr] at h
      cases h

theorem sortKey_lt_of_split (stripped : List Message) (hnd : stripped.Nodup)
    (pre mid post : List Message) (a t : Message)
    (hsplit : stripped = pre ++ a :: (mid ++ t :: post)) :
    sortKey stripped a < sortKey stripped t := by
  have ha_mem : a ∈ stripped := by
    rw [hsplit]
    exact List.mem_append_right pre (List.mem_cons_self a _)
  have ht_mem : t ∈ stripped := by
    rw [hsplit]
    exact List.mem_append_right pre (List.mem_cons_of_mem a
      (List.mem_append_right mid (List.mem_cons_self t post)))
  have hnd2 := hnd
  rw [hsplit] at hnd2
  rcases List.nodup_append.mp hnd2 with ⟨_, hnrest, hdisj⟩
  have ha_pre : a ∉ pre := fun hp => hdisj hp (List.mem_cons_self a _)
  have ht_pre : t ∉ pre := fun hp => hdisj hp (List.mem_cons_of_mem a
    (List.mem_append_right mid (List.mem_cons_self t post)))
  rcases List.nodup_cons.mp hnrest with ⟨ha_rest, hnmid⟩
  have hta : t ≠ a := fun he =>
    ha_rest (he ▸ List.mem_append_right mid (List.mem_cons_self t post))
  have ht_mid : t ∉ mid := by
    rcases List.nodup_append.mp hnmid with ⟨_, _, hdisj2⟩
    exact fun hm => hdisj2 hm (List.mem_cons_self t post)
  have hidx_a : pyIndexOf stripped a = pre.length := by
    rw [hsplit]
    exact pyIndexOf_of_split pre _ a ha_pre
  have hidx_t : pyIndexOf stripped t = pre.length + 1 + mid.length := by
    have hsplit2 : stripped = (pre ++ a :: mid) ++ t :: post := by
      rw [hsplit]
      simp [List.append_assoc]
    have ht_notin : t ∉ pre ++ a :: mid := by
      intro hm
      rcases List.mem_append.mp hm with hm' | hm'
      · exact ht_pre hm'
      · rcases List.mem_cons.mp hm' with he | hm''
        · exact hta he
        · exact ht_mid hm''
    rw [hsplit2, pyIndexOf_of_split _ _ _ ht_notin]
    simp [List.length_append]
    omega
  rw [sortKey, if_pos ha_mem, sortKey, if_pos ht_mem, hidx_a, hidx_t]
  omega

set_option maxRecDepth 8000 in
/-- **C1** (counterexample): on the sequence-packing path, the
single-most-recent-message fallback admits a bare tool message: with
input `[user, assistant+toolcalls(cost 1014), tool]` and budget 1000,
the whole tool sequence does not fit, its most recent message (the tool
message) is appended alone, and the output `[user, tool]` contains a
tool-role message whose tool-call-bearing assistant is absent. -/
theorem tool_sequence_atomicity_refuted :
    ¬ ((_estimate_token_count [exUserA, exAssistantBig, exToolOk] : Int) ≤ 1000) ∧
    ¬ (remainingBudget [exUserA, exAssistantBig, exToolOk] 1000 < 1000) ∧
    _identify_tool_sequences
        (strippedPart [exUserA, exAssistantBig, exToolOk]) =
      [[exUserA], [exAssistantBig, exToolOk]] ∧
    exToolOk.role = "tool" ∧
    manage_context_window [exUserA, exAssistantBig, exToolOk] 1000 =
      [exUserA, exToolOk] ∧
    exAssistantBig ∉ manage_context_window [exUserA, exAssistantBig, exToolOk] 1000 := by
  refine ⟨by decide, by decide, by decide, rfl, by decide, by decide⟩

/-- **C1** (amended): under the sequence-packing path, on a message
list without duplicate messages, every tool-role message of the output
that is **not** its sequence's most recent message (the one the
single-message fallback may admit alone) comes from a whole included
sequence: the sequence's tool-call-bearing assistant message is also in
the output and precedes it. -/
theorem tool_sequence_atomicity_amended
    (messages : List Message) (maxTokens : Int)
    (hnd : messages.Nodup)
    (h1 : ¬ ((_estimate_token_count messages : Int) ≤ maxTokens))
    (h2 : ¬ (remainingBudget messages maxTokens < 1000))
    (seq : List Message)
    (hseq : seq ∈ _identify_tool_sequences (strippedPart messages))
    (t : Message) (ht : t ∈ seq) (htool : t.role = "tool")
    (hmem : t ∈ manage_context_window messages maxTokens)
    (hnl : seq.getLast? ≠ some t) :
    ∃ a ts, seq = a :: ts ∧ a.role = "assistant" ∧ a.toolCalls ≠ [] ∧
      List.Sublist [a, t] (manage_context_window messages maxTokens) := by
  have h0 : messages ≠ [] := by
    intro he
    subst he
    have e1 : _estimate_token_count ([] : List Message) = 0 := rfl
    have e2 : remainingBudget [] maxTokens = maxTokens := by
      simp [remainingBudget, systemPart, _estimate_token_count]
    rw [e1] at h1
    rw [e2] at h2
    simp at h1
    omega
  rw [manage_eq_pack messages maxTokens h0 h1 h2] at hmem ⊢
  have hndstr : (strippedPart messages).Nodup := strippedPart_nodup messages hnd
  have hflat : (_identify_tool_sequences (strippedPart messages)).flatten =
      strippedPart messages := identify_flatten _
  have htres : t ∈ packSeqs (_identify_tool_sequences (strippedPart messages)).reverse
      (remainingBudget messages maxTokens) (systemPart messages) :=
    (pySortByKey_perm _ _).mem_iff.mp hmem
  rw [packSeqs_acc _ _ (systemPart messages)] at htres
  have htpick : t ∈ packSeqs (_identify_tool_sequences (strippedPart messages)).reverse
      (remainingBudget messages maxTokens) [] := by
    rcases List.mem_append.mp htres with hcase | hcase
    · exfalso
      have hsys := mem_systemPart_role hcase
      rw [htool] at hsys
      exact absurd hsys (by decide)
    · exact hcase
  rcases packSeqs_mem_cases _ _ t htpick with ⟨seq', hseq', hcase⟩
  have hseq'2 : seq' ∈ _identify_tool_sequences (strippedPart messages) :=
    List.mem_reverse.mp hseq'
  have hfnd : ((_identify_tool_sequences (strippedPart messages)).flatten).Nodup := by
    rw [hflat]
    exact hndstr
  have hteq : seq' = seq := by
    rcases hcase with ⟨ht', _⟩ | hlast
    · exact nodup_flatten_unique hfnd seq' hseq'2 seq hseq t ht' ht
    · exact nodup_flatten_unique hfnd seq' hseq'2 seq hseq t
        (List.mem_of_mem_getLast? hlast) ht
  subst hteq
  rcases hcase with ⟨_, hsub⟩ | hlast
  case inr => exact absurd hlast hnl
  rcases identify_seqOK _ seq' hseq'2 with ⟨hne, hshape⟩
  rcases hshape with hlen | ⟨a, ts, hseqeq, hstart, _⟩
  · exfalso
    cases seq' with
    | nil => exact hne rfl
    | cons x rest =>
      cases rest with
      | nil =>
        have hx := List.mem_singleton.mp ht
        subst hx
        exact hnl rfl
      | cons y rest2 => simp at hlen
  · rcases (startsToolSequence_iff a).mp hstart with ⟨hrole_a, htc_a⟩
    have hta : t ≠ a := by
      intro he
      have hra := htool
      rw [he, hrole_a] at hra
      exact absurd hra (by decide)
    have hts' : t ∈ ts := by
      rcases List.mem_cons.mp (hseqeq ▸ ht) with he | h'
      · exact absurd he hta
      · exact h'
    have hasub : a ∈ packSeqs (_identify_tool_sequences (strippedPart messages)).reverse
        (remainingBudget messages maxTokens) [] :=
      hsub.subset (hseqeq ▸ List.mem_cons_self a ts)
    have haout : a ∈ pySortByKey (sortKey (strippedPart messages))
        (packSeqs (_identify_tool_sequences (strippedPart messages)).reverse
          (remainingBudget messages maxTokens) (systemPart messages)) := by
      rw [(pySortByKey_perm _ _).mem_iff, packSeqs_acc _ _ (systemPart messages)]
      exact List.mem_append_right _ hasub
    rcases mem_flatten_split hseq'2 with ⟨pre, post, hsplit⟩
    rcases List.append_of_mem hts' with ⟨ts1, ts2, hts_eq⟩
    have hstr : strippedPart messages = pre ++ a :: (ts1 ++ t :: (ts2 ++ post)) := by
      rw [← hflat, hsplit, hseqeq, hts_eq]
      simp [List.append_assoc]
    have hlt := sortKey_lt_of_split (strippedPart messages) hndstr
      pre ts1 (ts2 ++ post) a t hstr
    rcases mem_mem_sublist_pair haout hmem (fun he => hta he.symm) with hgood | hbad
    · exact ⟨a, ts, hseqeq, hrole_a, htc_a, hgood⟩
    · exfalso
      have hsorted := pySortByKey_sorted (sortKey (strippedPart messages))
        (packSeqs (_identify_tool_sequences (strippedPart messages)).reverse
          (remainingBudget messages maxTokens) (systemPart messages))
      have hp := hsorted.sublist hbad
      have hta_le : sortKey (strippedPart messages) t ≤
          sortKey (strippedPart messages) a :=
        (List.pairwise_cons.mp hp).1 a (List.mem_cons_self a [])
      omega

set_option maxRecDepth 8000 in
/-- Witness for C1 at a concrete input: with budget 1000, the oversized
oldest message is dropped, the whole tool sequence fits, and its
non-final tool message `r1` is retained together with the assistant,
which precedes it. -/
theorem tool_sequence_atomicity_witness :
    [exUserBig, exAssistantSmall, exToolR1, exToolR2].Nodup ∧
    List.Sublist [exAssistantSmall, exToolR1]
      (manage_context_window [exUserBig, exAssistantSmall, exToolR1, exToolR2] 1000) := by
  have h := tool_sequence_atomicity_amended
    [exUserBig, exAssistantSmall, exToolR1, exToolR2] 1000
    (by decide) (by decide) (by decide)
    [exAssistantSmall, exToolR1, exToolR2] (by decide)
    exToolR1 (by decide) rfl (by decide) (by decide)
  rcases h with ⟨a, ts, hseq, hrole, htc, hsl⟩
  have ha : a = exAssistantSmall := by
    have hh := congrArg List.head? hseq
    simp at hh
    exact hh.symm
  rw [ha] at hsl
  exact ⟨by decide, hsl⟩

/-! ## Path-traversal guard (C10) -/

/-- **C10**: `_resolve_path` either returns a path whose string form
starts with the resolved workspace string or raises `ValueError`; on a
filepath whose resolved form fails the check, each file tool returns
the structured traversal error — `read_file` returns no contents and
`edit_existing_file`/`create_new_file` perform no write. -/
theorem path_traversal_guard (fs : FSEnv) (filepath : String) :
    (∀ p, _resolve_path fs.paths filepath = .ok p →
      pyStartsWith p fs.paths.wsResolved = true) ∧
    (pyStartsWith (fs.paths.resolveJoin filepath) fs.paths.wsResolved = false →
      _resolve_path fs.paths filepath = .error ("Path traversal detected: " ++ filepath) ∧
      read_file fs filepath = .error ("Path traversal detected: " ++ filepath) ∧
      (∀ changes, edit_existing_file fs filepath changes =
        (.error ("Path traversal detected: " ++ filepath), [])) ∧
      (∀ contents, create_new_file fs filepath contents =
        (.error ("Path traversal detected: " ++ filepath), [])) ∧
      (∀ recursive, list_directory fs filepath recursive =
        .error ("Path traversal detected: " ++ filepath))) := by
  constructor
  · intro p hp
    by_cases h : pyStartsWith (fs.paths.resolveJoin filepath) fs.paths.wsResolved
    · simp only [_resolve_path, h, if_pos, Except.ok.injEq] at hp
      exact hp ▸ h
    · simp [_resolve_path, h] at hp
  · intro h
    have hr : _resolve_path fs.paths filepath =
        .error ("Path traversal detected: " ++ filepath) := by
      simp [_resolve_path, h]
    exact ⟨hr, by simp [read_file, hr], fun changes => by simp [edit_existing_file, hr],
      fun contents => by simp [create_new_file, hr],
      fun recursive => by simp [list_directory, hr]⟩

/-- Witness for C10: in `exFS`, `"../x"` resolves to `"/x"`, outside
the workspace `"/ws"`. -/
theorem path_traversal_guard_witness :
    pyStartsWith (exFS.paths.resolveJoin "../x") exFS.paths.wsResolved = false ∧
    read_file exFS "../x" = .error ("Path traversal detected: " ++ "../x") ∧
    create_new_file exFS "../x" "c" = (.error ("Path traversal detected: " ++ "../x"), []) := by
  have h := (path_traversal_guard exFS "../x").2 (by decide)
  exact ⟨by decide, h.2.1, h.2.2.2.1 "c"⟩

end ToolProxy
